import Mathlib

/-!
Shallow embedding of the weighted-index sampler of `cpp-utils`:

* `discrete_distribution_pick` embeds the free function of `src/Random.hpp`
  (lines 25–45): scan the weight range with `std::find_if(_, _, isinf)`;
  if no infinite weight exists, construct a `std::discrete_distribution`
  and draw from it; otherwise discard one generator draw and return the
  distance from `first` to the found element.
* `discrete_distribution_safe` embeds the class of the same name
  (src/unnamed/part_001, lines 19–70): the constructor initialises
  `m_distrib(first, last)` in its member-initialiser list (unconditionally,
  before the infinity scan), then scans with `std::find_if(_, _, isinf)` and,
  if an infinite entry is found, records its index and sets the flag.
  `operator()` draws from `m_distrib` when the flag is clear, otherwise
  discards one draw and returns `m_infiniteIndex`.

Weights are C++ `double`s; the embedding keeps the cases the code branches
on (finite value, `+inf`, `-inf`, `NaN`) as an inductive type with the
finite magnitude a rational.  The pseudo-random generator is modelled at
the interface the spec gives it (§6): a stream of uniform draws in `[0,1)`
plus a position; `discard k` advances the position by `k`, and one
`std::discrete_distribution` draw consumes one stream value
(inverse-CDF selection over the unnormalised cumulative weights, which is
the standard normalise-and-partition construction up to the common factor
`1/sum`).  `W.val` extends the numeric reading of a weight to the
non-finite cases by `0`; it is only consulted by the categorical draw,
which the C++ code reaches only for ranges with no infinite entry (NaN
entries reaching it are undefined behaviour in C++; any total extension
models them, and no claim below depends on that extension).
-/

/-- Model of a C++ `double` as the sampler observes it. -/
inductive W where
  | fin (q : ℚ)
  | posInf
  | negInf
  | nan
deriving DecidableEq

/-- `std::isinf`: true exactly on the two infinities. -/
def W.isinf : W → Bool
  | .posInf => true
  | .negInf => true
  | _ => false

/-- "equals positive infinity". -/
def W.isPosInf : W → Bool
  | .posInf => true
  | _ => false

/-- Numeric value of a weight as used by the categorical draw; faithful on
finite weights, an arbitrary total extension (`0`) elsewhere. -/
def W.val : W → ℚ
  | .fin q => q
  | _ => 0

/-- A weight in the spec's domain (glossary: a weight is a non-negative
real number or `+infinity`). -/
def WeightOK : W → Bool
  | .fin q => decide (0 ≤ q)
  | .posInf => true
  | _ => false

/-- The pseudo-random generator at the interface of spec §6: a stream of
uniform draws and a current position. -/
structure Gen where
  stream : Nat → ℚ
  pos : Nat

/-- `generator.discard(k)`: advance the state by `k` draw-equivalent steps. -/
def Gen.discard (g : Gen) (k : Nat) : Gen :=
  { g with pos := g.pos + k }

/-- A valid generator emits draws in `[0, 1)`. -/
def GenValid (g : Gen) : Prop :=
  ∀ n, 0 ≤ g.stream n ∧ g.stream n < 1

/-- Sum of the numeric weight values. -/
def wsum (ws : List W) : ℚ :=
  (ws.map W.val).sum

/-- Inverse-CDF selection: the first index whose cumulative weight exceeds
the target. -/
def cumFind : List W → ℚ → Nat
  | [], _ => 0
  | w :: rest, t => if t < w.val then 0 else cumFind rest (t - w.val) + 1

/-- Model of a constructed `std::discrete_distribution`: it is a pure
function of the weight range it was built from. -/
structure discrete_distribution where
  weights : List W
deriving DecidableEq

/-- One draw from the categorical distribution: consume one uniform value
`u`, select by inverse CDF at target `u * sum`, advance the generator by
one step. -/
def discrete_distribution.sample (d : discrete_distribution) (g : Gen) :
    Nat × Gen :=
  (cumFind d.weights (g.stream g.pos * wsum d.weights), g.discard 1)

/-- `std::find_if` composed with `std::distance`: index of the first
element satisfying `p`, if any. -/
def find_if (p : W → Bool) : List W → Option Nat
  | [] => none
  | w :: rest => if p w then some 0 else (find_if p rest).map (fun j => j + 1)

/-- Embedding of `discrete_distribution_pick` (src/Random.hpp, lines
25–45).  The C++ initialises `picked` to `distance(first, last)` and then
overwrites it on both branches; the dead store is dropped. -/
def discrete_distribution_pick (ws : List W) (g : Gen) : Nat × Gen :=
  match find_if W.isinf ws with
  | none => (discrete_distribution.mk ws).sample g
  | some i => (i, g.discard 1)

/-- `std::numeric_limits<int>::max()`, the initial value of
`m_infiniteIndex`. -/
def intMax : Nat := 2147483647

/-- State of a `discrete_distribution_safe` object.  `m_distrib` records
the `std::discrete_distribution` member together with the weight range it
was constructed from; `Option` makes "a distribution was built" an
observable fact of the state (the constructor below always produces
`some`, mirroring the member-initialiser list). -/
structure discrete_distribution_safe where
  m_distrib : Option discrete_distribution
  m_infiniteIndex : Nat
  m_infiniteWeight : Bool
deriving DecidableEq

/-- Embedding of the `discrete_distribution_safe` constructor
(src/unnamed/part_001, lines 29–43): the member-initialiser list builds
`m_distrib(first, last)` unconditionally and sets
`m_infiniteIndex = intMax`, `m_infiniteWeight = false`; the body then
scans for the first infinite entry and, if found, overwrites the index and
the flag. -/
def discrete_distribution_safe.construct (ws : List W) :
    discrete_distribution_safe :=
  let base : discrete_distribution_safe :=
    { m_distrib := some (discrete_distribution.mk ws)
      m_infiniteIndex := intMax
      m_infiniteWeight := false }
  match find_if W.isinf ws with
  | some i => { base with m_infiniteIndex := i, m_infiniteWeight := true }
  | none => base

/-- Embedding of `discrete_distribution_safe::operator()`
(src/unnamed/part_001, lines 53–64).  The C++ member function mutates no
member, so the embedding returns the (unchanged) object state alongside
the result and the advanced generator.  The `none` branch of `m_distrib`
is unreachable for objects produced by `construct`; it returns an
arbitrary value. -/
def discrete_distribution_safe.call (s : discrete_distribution_safe)
    (g : Gen) : Nat × Gen × discrete_distribution_safe :=
  if s.m_infiniteWeight = false then
    match s.m_distrib with
    | some d =>
      let r := d.sample g
      (r.1, r.2, s)
    | none => (0, g, s)
  else
    (s.m_infiniteIndex, g.discard 1, s)

/-- A sequence of `k` draws from one sampler, threading the generator and
the sampler state. -/
def discrete_distribution_safe.drawSeq (s : discrete_distribution_safe)
    (g : Gen) : Nat → List Nat × Gen × discrete_distribution_safe
  | 0 => ([], g, s)
  | Nat.succ k =>
    let r := s.call g
    let rest := r.2.2.drawSeq r.2.1 k
    (r.1 :: rest.1, rest.2)

/-! ### Helper lemmas -/

theorem find_if_lt_length {p : W → Bool} :
    ∀ {ws : List W} {i : Nat}, find_if p ws = some i → i < ws.length := by
  intro ws
  induction ws with
  | nil => intro i h; simp [find_if] at h
  | cons w rest ih =>
    intro i h
    simp only [find_if] at h
    by_cases hp : p w
    · rw [if_pos hp] at h
      cases h
      simp
    · rw [if_neg hp] at h
      cases hr : find_if p rest with
      | none => rw [hr] at h; simp at h
      | some j =>
        rw [hr] at h
        simp at h
        have := ih hr
        simp
        omega

theorem find_if_eq_none_iff {p : W → Bool} :
    ∀ {ws : List W}, find_if p ws = none ↔ ∀ w ∈ ws, p w = false := by
  intro ws
  induction ws with
  | nil => simp [find_if]
  | cons w rest ih =>
    by_cases hp : p w <;> simp [find_if, hp, ih]

theorem find_if_mem {p : W → Bool} :
    ∀ {ws : List W} {i : Nat}, find_if p ws = some i →
      ∃ w ∈ ws, p w = true := by
  intro ws
  induction ws with
  | nil => intro i h; simp [find_if] at h
  | cons w rest ih =>
    intro i h
    simp only [find_if] at h
    by_cases hp : p w
    · exact ⟨w, by simp, hp⟩
    · rw [if_neg hp] at h
      cases hr : find_if p rest with
      | none => rw [hr] at h; simp at h
      | some j =>
        obtain ⟨w0, hmem, hw0⟩ := ih hr
        exact ⟨w0, by simp [hmem], hw0⟩

theorem find_if_congr {p q : W → Bool} :
    ∀ {ws : List W}, (∀ w ∈ ws, p w = q w) →
      find_if p ws = find_if q ws := by
  intro ws
  induction ws with
  | nil => intro _; rfl
  | cons w rest ih =>
    intro h
    have hw : p w = q w := h w (by simp)
    have hrest : find_if p rest = find_if q rest :=
      ih (fun w0 hmem => h w0 (by simp [hmem]))
    simp [find_if, hw, hrest]

/-- Under the spec's weight domain, `std::isinf` coincides with "equals
positive infinity". -/
theorem isinf_eq_isPosInf_of_ok {w : W} (h : WeightOK w = true) :
    W.isinf w = W.isPosInf w := by
  cases w <;> simp_all [WeightOK, W.isinf, W.isPosInf]

theorem isPosInf_iff {w : W} : W.isPosInf w = true ↔ w = W.posInf := by
  cases w <;> simp [W.isPosInf]

theorem cumFind_lt_length :
    ∀ (ws : List W) (t : ℚ), (∀ w ∈ ws, 0 ≤ w.val) →
      0 ≤ t → t < wsum ws → cumFind ws t < ws.length := by
  intro ws
  induction ws with
  | nil =>
    intro t _ ht hlt
    simp [wsum] at hlt
    exact absurd (lt_of_le_of_lt ht hlt) (lt_irrefl 0)
  | cons w rest ih =>
    intro t hnn ht hlt
    simp only [cumFind]
    by_cases hc : t < w.val
    · simp [hc]
    · rw [if_neg hc]
      push_neg at hc
      have hrest : cumFind rest (t - w.val) < rest.length := by
        apply ih
        · exact fun w0 hmem => hnn w0 (by simp [hmem])
        · linarith
        · have : wsum (w :: rest) = w.val + wsum rest := by
            simp [wsum]
          linarith [hlt, this]
      simp
      omega

theorem wsum_nonneg_of_ok {ws : List W}
    (h : ∀ w ∈ ws, WeightOK w = true) : ∀ w ∈ ws, 0 ≤ w.val := by
  intro w hmem
  have := h w hmem
  cases w <;> simp_all [WeightOK, W.val]

/-- Every `std::discrete_distribution` draw advances the generator by
exactly one step. -/
theorem sample_pos (d : discrete_distribution) (g : Gen) :
    ((d.sample g).2).pos = g.pos + 1 := rfl

/-- Both branches of `discrete_distribution_pick` advance the generator by
exactly one step. -/
theorem pick_pos (ws : List W) (g : Gen) :
    ((discrete_distribution_pick ws g).2).pos = g.pos + 1 := by
  unfold discrete_distribution_pick
  cases h : find_if W.isinf ws <;> simp [h, sample_pos, Gen.discard]

/-- Both branches of `discrete_distribution_safe::operator()` advance the
generator of a constructed sampler by exactly one step. -/
theorem call_pos (ws : List W) (g : Gen) :
    (((discrete_distribution_safe.construct ws).call g).2.1).pos =
      g.pos + 1 := by
  unfold discrete_distribution_safe.construct discrete_distribution_safe.call
  cases h : find_if W.isinf ws <;> simp [h, sample_pos, Gen.discard]

/-! ### Claim theorems -/

/-- C1: for every weight sequence over the spec's weight domain (each
entry a non-negative finite value or `+infinity`) whose first `+infinity`
entry sits at index `i`, and for every generator state, a single
`discrete_distribution_pick` call and a single call on a constructed
`discrete_distribution_safe` both return `i`; in particular, for weights
`[+infinity, +infinity]` every call returns `0`. -/
theorem C1_infinite_short_circuit (ws : List W) (i : Nat) (g : Gen)
    (hok : ∀ w ∈ ws, WeightOK w = true)
    (hfirst : find_if W.isPosInf ws = some i) :
    (discrete_distribution_pick ws g).1 = i ∧
    ((discrete_distribution_safe.construct ws).call g).1 = i ∧
    (discrete_distribution_pick [W.posInf, W.posInf] g).1 = 0 := by
  have hcongr : find_if W.isinf ws = find_if W.isPosInf ws :=
    find_if_congr (fun w hmem => isinf_eq_isPosInf_of_ok (hok w hmem))
  have hinf : find_if W.isinf ws = some i := by rw [hcongr]; exact hfirst
  refine ⟨?_, ?_, rfl⟩
  · simp [discrete_distribution_pick, hinf]
  · simp [discrete_distribution_safe.construct,
      discrete_distribution_safe.call, hinf]

theorem C1_infinite_short_circuit_witness :
    (discrete_distribution_pick [W.fin 2, W.posInf, W.fin 5]
      { stream := fun _ => 0, pos := 0 }).1 = 1 ∧
    ((discrete_distribution_safe.construct [W.fin 2, W.posInf, W.fin 5]).call
      { stream := fun _ => 0, pos := 0 }).1 = 1 ∧
    (discrete_distribution_pick [W.posInf, W.posInf]
      { stream := fun _ => 0, pos := 0 }).1 = 0 :=
  C1_infinite_short_circuit [W.fin 2, W.posInf, W.fin 5] 1
    { stream := fun _ => 0, pos := 0 } (by decide) (by decide)

/-- C2: every sample/pick call consumes exactly one unit of randomness
regardless of the path taken: for two weight sequences of equal length,
one containing an infinite entry and one fully finite, one call on each
advances the respective generator by the same number (one) of draw
steps — for the free function and for the class alike. -/
theorem C2_entropy_uniform (ws1 ws2 : List W) (g1 g2 : Gen)
    (_hlen : ws1.length = ws2.length)
    (_h1 : ∃ w ∈ ws1, W.isinf w = true)
    (_h2 : ∀ w ∈ ws2, W.isinf w = false) :
    ((discrete_distribution_pick ws1 g1).2).pos = g1.pos + 1 ∧
    ((discrete_distribution_pick ws2 g2).2).pos = g2.pos + 1 ∧
    (((discrete_distribution_safe.construct ws1).call g1).2.1).pos =
      g1.pos + 1 ∧
    (((discrete_distribution_safe.construct ws2).call g2).2.1).pos =
      g2.pos + 1 :=
  ⟨pick_pos ws1 g1, pick_pos ws2 g2, call_pos ws1 g1, call_pos ws2 g2⟩

theorem C2_entropy_uniform_witness :
    ((discrete_distribution_pick [W.posInf, W.fin 1]
      { stream := fun _ => 0, pos := 5 }).2).pos = 6 ∧
    ((discrete_distribution_pick [W.fin 1, W.fin 2]
      { stream := fun _ => 0, pos := 5 }).2).pos = 6 ∧
    (((discrete_distribution_safe.construct [W.posInf, W.fin 1]).call
      { stream := fun _ => 0, pos := 5 }).2.1).pos = 6 ∧
    (((discrete_distribution_safe.construct [W.fin 1, W.fin 2]).call
      { stream := fun _ => 0, pos := 5 }).2.1).pos = 6 :=
  C2_entropy_uniform [W.posInf, W.fin 1] [W.fin 1, W.fin 2]
    { stream := fun _ => 0, pos := 5 } { stream := fun _ => 0, pos := 5 }
    rfl (by decide) (by decide)

/-- C3: for every valid weight sequence of length `n` (non-empty, every
entry a non-negative finite value or `+infinity`, positive total weight on
the all-finite path, per spec §3/§9 which leave an all-zero finite vector
undefined) and every valid generator state, both implementations return an
index in `[0, n)`; both are total functions, so no failure path exists
after construction. -/
theorem C3_range (ws : List W) (g : Gen)
    (_hne : ws ≠ [])
    (hok : ∀ w ∈ ws, WeightOK w = true)
    (hzero : find_if W.isinf ws = none → 0 < wsum ws)
    (hg : GenValid g) :
    (discrete_distribution_pick ws g).1 < ws.length ∧
    ((discrete_distribution_safe.construct ws).call g).1 < ws.length := by
  cases h : find_if W.isinf ws with
  | some i =>
    have hlt := find_if_lt_length h
    constructor
    · simpa [discrete_distribution_pick, h] using hlt
    · simpa [discrete_distribution_safe.construct,
        discrete_distribution_safe.call, h] using hlt
  | none =>
    have hs : 0 < wsum ws := hzero h
    have hnn := wsum_nonneg_of_ok hok
    have hu := hg g.pos
    have htar : 0 ≤ g.stream g.pos * wsum ws :=
      mul_nonneg hu.1 (le_of_lt hs)
    have htar2 : g.stream g.pos * wsum ws < wsum ws := by
      calc g.stream g.pos * wsum ws < 1 * wsum ws :=
            mul_lt_mul_of_pos_right hu.2 hs
        _ = wsum ws := one_mul _
    have hcf : cumFind ws (g.stream g.pos * wsum ws) < ws.length :=
      cumFind_lt_length ws _ hnn htar htar2
    constructor
    · simpa [discrete_distribution_pick, h,
        discrete_distribution.sample] using hcf
    · simpa [discrete_distribution_safe.construct,
        discrete_distribution_safe.call, h,
        discrete_distribution.sample] using hcf

theorem C3_range_witness :
    (discrete_distribution_pick [W.fin 1, W.fin 2]
      { stream := fun _ => 0, pos := 0 }).1 < 2 ∧
    ((discrete_distribution_safe.construct [W.fin 1, W.fin 2]).call
      { stream := fun _ => 0, pos := 0 }).1 < 2 :=
  C3_range [W.fin 1, W.fin 2] { stream := fun _ => 0, pos := 0 }
    (by decide) (by decide)
    (fun _ => by norm_num [wsum, W.val])
    (fun _ => ⟨le_refl 0, by norm_num⟩)

/-- C5: over the spec's weight domain, construction sets
`m_infiniteWeight = true` iff some entry equals positive infinity, and
when the first such entry sits at index `i` (single left-to-right scan),
`m_infiniteIndex = i`. -/
theorem C5_classification (ws : List W)
    (hok : ∀ w ∈ ws, WeightOK w = true) :
    ((discrete_distribution_safe.construct ws).m_infiniteWeight = true ↔
      W.posInf ∈ ws) ∧
    ∀ i, find_if W.isPosInf ws = some i →
      (discrete_distribution_safe.construct ws).m_infiniteIndex = i := by
  have hcongr : find_if W.isinf ws = find_if W.isPosInf ws :=
    find_if_congr (fun w hmem => isinf_eq_isPosInf_of_ok (hok w hmem))
  constructor
  · cases h : find_if W.isPosInf ws with
    | none =>
      have hall := find_if_eq_none_iff.mp h
      simp [discrete_distribution_safe.construct, hcongr, h]
      intro hmem
      have := hall _ hmem
      simp [W.isPosInf] at this
    | some i =>
      obtain ⟨w, hmem, hw⟩ := find_if_mem h
      have hwp : w = W.posInf := isPosInf_iff.mp hw
      subst hwp
      simp [discrete_distribution_safe.construct, hcongr, h, hmem]
  · intro i h
    simp [discrete_distribution_safe.construct, hcongr, h]

theorem C5_classification_witness :
    (discrete_distribution_safe.construct
      [W.fin 1, W.posInf]).m_infiniteIndex = 1 :=
  (C5_classification [W.fin 1, W.posInf] (by decide)).2 1 (by decide)

/-- C4 counterexample: constructing from `[+infinity]` finds the infinite
weight (flag set, index 0 recorded), yet the categorical-distribution
member IS built from the weights — the member-initialiser list
`m_distrib(first, last)` runs before the infinity scan — refuting the
part "no categorical distribution is built from the weights". -/
theorem C4_counterexample :
    (discrete_distribution_safe.construct [W.posInf]).m_infiniteWeight =
      true ∧
    (discrete_distribution_safe.construct [W.posInf]).m_distrib =
      some (discrete_distribution.mk [W.posInf]) :=
  ⟨rfl, rfl⟩

/-- C4 amended: construction always builds the categorical-distribution
member from the full weight range, even when an infinite weight is found
at position `i`; in that case the flag and index are recorded and a call
never consults the distribution member (its returned index and generator
effect are independent of that member), and the classification never
changes for the object's lifetime (a call returns the sampler state
unchanged). -/
theorem C4_single_classification (ws : List W) (i : Nat)
    (hfirst : find_if W.isinf ws = some i) :
    discrete_distribution_safe.construct ws =
      { m_distrib := some (discrete_distribution.mk ws)
        m_infiniteIndex := i
        m_infiniteWeight := true } ∧
    (∀ g, ((discrete_distribution_safe.construct ws).call g).2.2 =
      discrete_distribution_safe.construct ws) ∧
    (∀ g (d : Option discrete_distribution),
      ((discrete_distribution_safe.mk d i true).call g).1 = i ∧
      ((discrete_distribution_safe.mk d i true).call g).2.1 =
        g.discard 1) := by
  refine ⟨?_, ?_, fun g d => ⟨rfl, rfl⟩⟩
  · simp [discrete_distribution_safe.construct, hfirst]
  · intro g
    simp [discrete_distribution_safe.construct,
      discrete_distribution_safe.call, hfirst]

theorem C4_single_classification_witness :
    discrete_distribution_safe.construct [W.fin 1, W.posInf] =
      { m_distrib := some (discrete_distribution.mk [W.fin 1, W.posInf])
        m_infiniteIndex := 1
        m_infiniteWeight := true } :=
  (C4_single_classification [W.fin 1, W.posInf] 1 (by decide)).1

/-- C6 counterexample: construction with an empty weight sequence, and
with a sequence containing a negative and a NaN weight, completes
normally and yields an ordinary sampler value — no error is raised and no
assertion fires; the constructor has no rejection path at all, refuting
"rejected fast / an error is raised or an assertion fires". -/
theorem C6_counterexample :
    discrete_distribution_safe.construct [] =
      { m_distrib := some (discrete_distribution.mk [])
        m_infiniteIndex := intMax
        m_infiniteWeight := false } ∧
    discrete_distribution_safe.construct [W.fin (-1), W.nan] =
      { m_distrib := some (discrete_distribution.mk [W.fin (-1), W.nan])
        m_infiniteIndex := intMax
        m_infiniteWeight := false } :=
  ⟨rfl, rfl⟩

/-- C6 amended: construction performs no validation at all: any weight
sequence — empty, with negative entries, with NaN entries — is accepted,
the sampler is built unconditionally, and its state is determined solely
by the infinity scan; no error is surfaced to the caller. -/
theorem C6_no_validation (ws : List W) :
    discrete_distribution_safe.construct ws =
      { m_distrib := some (discrete_distribution.mk ws)
        m_infiniteIndex := (find_if W.isinf ws).getD intMax
        m_infiniteWeight := (find_if W.isinf ws).isSome } := by
  unfold discrete_distribution_safe.construct
  cases h : find_if W.isinf ws <;> simp [h]

/-- C7: sampling is deterministic in the construction inputs and the
generator seed: two samplers constructed from the same weight sequence,
drawn `k` times with identically seeded generators, produce identical
output index sequences (and identical final states). -/
theorem C7_determinism (ws1 ws2 : List W) (g1 g2 : Gen) (k : Nat)
    (hws : ws1 = ws2) (hg : g1 = g2) :
    (discrete_distribution_safe.construct ws1).drawSeq g1 k =
      (discrete_distribution_safe.construct ws2).drawSeq g2 k := by
  subst hws; subst hg; rfl

theorem C7_determinism_witness :
    (discrete_distribution_safe.construct [W.fin 1, W.fin 3]).drawSeq
      { stream := fun _ => 0, pos := 0 } 2 =
    (discrete_distribution_safe.construct [W.fin 1, W.fin 3]).drawSeq
      { stream := fun _ => 0, pos := 0 } 2 :=
  C7_determinism [W.fin 1, W.fin 3] [W.fin 1, W.fin 3]
    { stream := fun _ => 0, pos := 0 } { stream := fun _ => 0, pos := 0 }
    2 rfl rfl

/-- C8: a call mutates only the generator: the sampler state returned by
`call` is the sampler itself — every field (the stored distribution, the
infinite-weight flag, the infinite index) is unchanged, for every sampler
state and every generator. -/
theorem C8_frame (s : discrete_distribution_safe) (g : Gen) :
    ((s.call g).2.2) = s := by
  obtain ⟨d, idx, flag⟩ := s
  cases flag <;> cases d <;> rfl

/-- C9: the two implementations are equivalent: for every weight sequence
and every initial generator state, `discrete_distribution_pick` returns
the same index and leaves the generator in the same final state as
constructing a `discrete_distribution_safe` from the sequence and
invoking its call operator once. -/
theorem C9_pick_eq_safe (ws : List W) (g : Gen) :
    (discrete_distribution_pick ws g).1 =
      ((discrete_distribution_safe.construct ws).call g).1 ∧
    (discrete_distribution_pick ws g).2 =
      ((discrete_distribution_safe.construct ws).call g).2.1 := by
  cases h : find_if W.isinf ws <;>
    simp [discrete_distribution_pick, discrete_distribution_safe.construct,
      discrete_distribution_safe.call, h]

/-- C10: the classification tests `isinf`, not "equals +infinity": for
every weight sequence whose first infinite-magnitude entry is negative
infinity at index `i`, both implementations take the short-circuit path,
discard exactly one generator draw, and return `i` for every generator
state. -/
theorem C10_negInf_short_circuit (ws : List W) (i : Nat) (g : Gen)
    (hfirst : find_if W.isinf ws = some i)
    (_hneg : ws[i]? = some W.negInf) :
    discrete_distribution_pick ws g = (i, g.discard 1) ∧
    (discrete_distribution_safe.construct ws).call g =
      (i, g.discard 1, discrete_distribution_safe.construct ws) ∧
    (g.discard 1).pos = g.pos + 1 := by
  refine ⟨?_, ?_, rfl⟩
  · simp [discrete_distribution_pick, hfirst]
  · simp [discrete_distribution_safe.construct,
      discrete_distribution_safe.call, hfirst]

theorem C10_negInf_short_circuit_witness :
    discrete_distribution_pick [W.fin 1, W.negInf, W.posInf]
      { stream := fun _ => 0, pos := 7 } =
      (1, Gen.discard { stream := fun _ => 0, pos := 7 } 1) ∧
    (discrete_distribution_safe.construct
      [W.fin 1, W.negInf, W.posInf]).call
      { stream := fun _ => 0, pos := 7 } =
      (1, Gen.discard { stream := fun _ => 0, pos := 7 } 1,
        discrete_distribution_safe.construct
          [W.fin 1, W.negInf, W.posInf]) ∧
    (Gen.discard { stream := fun _ => 0, pos := 7 } 1).pos = 7 + 1 :=
  C10_negInf_short_circuit [W.fin 1, W.negInf, W.posInf] 1
    { stream := fun _ => 0, pos := 7 } (by decide) (by decide)

example : (discrete_distribution_pick [W.posInf, W.posInf]
    { stream := fun _ => 1/2, pos := 3 }).1 = 0 := rfl

example : (discrete_distribution_pick [W.fin 1, W.fin 3]
    { stream := fun _ => 1/2, pos := 0 }).1 = 1 := by
  norm_num [discrete_distribution_pick, find_if, W.isinf,
    discrete_distribution.sample, cumFind, wsum, W.val]

example : (discrete_distribution_safe.construct [W.fin 2, W.posInf, W.fin 5]).m_infiniteIndex = 1 := rfl
